import Mathlib

/-!
Shallow embedding of the nifyacorp/scheduler-service core:
the task executor (validation, timeout race, retry/backoff), the
scheduler controller (schedule table, initialization, executeTask), and
the in-memory task-history store (append with eviction, filtered sorted
paginated queries).  Definitions are translated from the JavaScript
source; external collaborators (clock, node-cron validation, zod
schemas, handlers) are modelled as explicit parameters.
-/

namespace SchedulerService

/-- Errors thrown by the service, tagged by throw site.  The JS code
throws plain `Error` values; the tag records which `throw` produced the
value and the payload reconstructs the exact message string. -/
inductive TErr where
  | unknownTaskType (taskType : String)
  | invalidParameters (msg : String)
  | executionTimeout (taskType : String) (timeoutMs : Nat)
  | handlerError (msg : String)
  | invalidCronExpression (expr : String) (taskType : String)
deriving DecidableEq, Repr

/-- The message string of each thrown error, exactly as built in the
source (template literals in task-executor.js and scheduler.js). -/
def TErr.message : TErr → String
  | .unknownTaskType t => "Unknown task type: " ++ t
  | .invalidParameters m => "Invalid parameters for task: " ++ m
  | .executionTimeout t ms => "Task " ++ t ++ " timed out after " ++ toString ms ++ "ms"
  | .handlerError m => m
  | .invalidCronExpression e t => "Invalid cron expression: " ++ e ++ " for task " ++ t

/-- Task parameters: a JS object modelled as an association list. -/
abbrev Params := List (String × String)

/-- JS object spread `\x7b ...defaults, ...explicit \x7d`: every key of
`explicit` wins over the same key in `defaults`. -/
def mergeParams (defaults explicit : Params) : Params :=
  defaults.filter (fun kv => !(explicit.any (fun kv2 => kv2.1 == kv.1))) ++ explicit

/-- A parameters schema.  `zodSchema` models a zod validator by its
acceptance predicate together with the message of the error it throws on
a rejected value; the non-zod branch of `validateParameters` performs no
validation in the source, which `jsonSchema` mirrors. -/
inductive PSchema where
  | zodSchema (accepts : Params → Bool) (emsg : Params → String)
  | jsonSchema

/-- One element of `retryPolicy.retryableErrors`: a plain string
(matched by substring), a RegExp (modelled by its test predicate), or
any other value (never matches, the final `return false`). -/
inductive ErrPattern where
  | strPat (s : String)
  | regexPat (test : String → Bool)
  | otherPat

/-- Retry policy of a task definition.  `maxRetries` is read through JS
truthiness (`!maxRetries || maxRetries <= 0` disables retry), so an
absent field is modelled as `0`. -/
structure RetryPolicy where
  maxRetries : Nat
  baseDelayMs : Option Nat
  maxDelayMs : Option Nat
  retryableErrors : Option (List ErrPattern)

/-- Behavior of one handler invocation, externally determined: the time
at which the returned promise settles (`none` = never settles) and, when
it settles, its result or rejection message. -/
structure HandlerBehavior where
  settleMs : Option Nat
  outcome : Except String String

/-- A task definition as loaded into the registry.  The handler is an
external collaborator: its behavior may depend on the merged parameters
it is called with and on which invocation (0-based, in call order across
the whole execution) is being made. -/
structure TaskDefinition where
  cronSchedule : Option String
  parametersSchema : Option PSchema
  defaultParameters : Params
  timeoutMs : Option Nat
  retryPolicy : Option RetryPolicy
  handler : Params → Nat → HandlerBehavior

/-- The task registry: a JS object mapping task type to definition. -/
abbrev TaskDefs := List (String × TaskDefinition)

/-- Property lookup `taskDefinitions[taskType]`. -/
def lookupDef (defs : TaskDefs) (taskType : String) : Option TaskDefinition :=
  (defs.find? (fun kv => kv.1 == taskType)).map (·.2)

/-- JS `value || d` for an optional numeric field: an absent field and
the falsy value `0` both fall back to the default. -/
def orDefault (v : Option Nat) (d : Nat) : Nat :=
  match v with
  | some n => if n == 0 then d else n
  | none => d

/-- `validateParameters` (task-executor.js): with no schema, or with a
non-zod schema, it validates nothing; a zod schema that rejects makes it
throw an InvalidParameters error wrapping the zod message. -/
def validateParameters (td : TaskDefinition) (p : Params) : Except TErr Unit :=
  match td.parametersSchema with
  | none => .ok ()
  | some (.zodSchema accepts emsg) =>
      if accepts p then .ok () else .error (.invalidParameters (emsg p))
  | some .jsonSchema => .ok ()

/-- Whether `pat` occurs at the head of `s`. -/
def matchesAt : List Char → List Char → Bool
  | [], _ => true
  | _ :: _, [] => false
  | c :: cs, d :: ds => c == d && matchesAt cs ds

/-- Whether `pat` occurs contiguously anywhere in the haystack. -/
def hasSubList (pat : List Char) : List Char → Bool
  | [] => matchesAt pat []
  | d :: ds => matchesAt pat (d :: ds) || hasSubList pat ds

/-- JS `s.includes(pat)`. -/
def containsSub (s pat : String) : Bool := hasSubList pat.toList s.toList

/-- Whether one retryable-error pattern matches an error message. -/
def patMatch (pat : ErrPattern) (msg : String) : Bool :=
  match pat with
  | .strPat s => containsSub msg s
  | .regexPat test => test msg
  | .otherPat => false

/-- `shouldRetry` (task-executor.js): no retry when `maxRetries` is
falsy or nonpositive; with `retryableErrors` set, retry iff some pattern
matches the error message; with it unset, retry every error. -/
def shouldRetry (retryPolicy : RetryPolicy) (err : TErr) : Bool :=
  if retryPolicy.maxRetries == 0 then false
  else
    match retryPolicy.retryableErrors with
    | some pats => pats.any (fun pat => patMatch pat err.message)
    | none => true

/-- `delay` computed in `retryExecution` from the exponential backoff
formula, with the `|| 1000` and `|| 30000` fallbacks. -/
def retryDelayMs (policy : RetryPolicy) (retryCount : Nat) : Nat :=
  min (orDefault policy.baseDelayMs 1000 * 2 ^ (retryCount - 1))
    (orDefault policy.maxDelayMs 30000)

/-- `Promise.race([executionPromise, timeoutPromise])`: the handler wins
iff it settles strictly before the deadline; otherwise the timer rejects
with the ExecutionTimeout error.  A handler rejection becomes a thrown
HandlerError carrying the rejection message. -/
def raceOutcome (taskType : String) (timeoutMs : Nat) (hb : HandlerBehavior) :
    Except TErr String :=
  match hb.settleMs with
  | some d =>
      if d < timeoutMs then
        match hb.outcome with
        | .ok r => .ok r
        | .error m => .error (.handlerError m)
      else .error (.executionTimeout taskType timeoutMs)
  | none => .error (.executionTimeout taskType timeoutMs)

/-- Observable events of one `execute` call chain: the deadline that was
armed, each handler invocation (with its execution id), and each backoff
wait. -/
inductive Ev where
  | deadlineSet (timeoutMs : Nat)
  | handlerCall (executionId : String)
  | retryDelay (delayMs : Nat)
deriving DecidableEq, Repr

/-- `retryState` of `handleRetry`/`retryExecution`. -/
structure RetryState where
  attemptsRemaining : Nat
  retryCount : Nat
  lastError : TErr
  originalExecutionId : String

/-- Result of running (a fuel-bounded prefix of) an execution chain: the
event trace, the next handler-invocation index, and the settled outcome;
`none` means the chain had not settled within the given fuel. -/
structure RunOut where
  trace : List Ev
  nextCall : Nat
  outcome : Option (Except TErr String)

/-- The body of the `try` block of `execute`: validate the parameters,
merge the defaults, arm the `timeoutMs || 300000` deadline and race the
handler invocation against it.  Returns the events, the next invocation
index and the settled value or thrown error of this single attempt. -/
def attemptOnce (taskType : String) (td : TaskDefinition) (parameters : Params)
    (executionId : String) (k : Nat) : List Ev × Nat × Except TErr String :=
  match validateParameters td parameters with
  | .error e => ([], k, .error e)
  | .ok _ =>
    let merged := mergeParams td.defaultParameters parameters
    let timeoutMs := orDefault td.timeoutMs 300000
    let hb := td.handler merged k
    ([Ev.deadlineSet timeoutMs, Ev.handlerCall executionId], k + 1,
      raceOutcome taskType timeoutMs hb)

mutual

/-- `TaskExecutor.execute`, fuel-indexed.  An unknown task type throws
before the `try` block; a thrown error from the attempt enters
`handleRetry` (fresh retry state with `attemptsRemaining = maxRetries`)
when a retry policy is present and `shouldRetry` approves, and is
re-thrown otherwise. -/
def executeF (defs : TaskDefs) : Nat → String → Params → String → Nat → RunOut
  | 0, _, _, _, k => ⟨[], k, none⟩
  | fuel + 1, taskType, parameters, executionId, k =>
    match lookupDef defs taskType with
    | none => ⟨[], k, some (.error (.unknownTaskType taskType))⟩
    | some td =>
      match attemptOnce taskType td parameters executionId k with
      | (tr, k1, .ok r) => ⟨tr, k1, some (.ok r)⟩
      | (tr, k1, .error e) =>
        match td.retryPolicy with
        | some policy =>
          if shouldRetry policy e then
            let out := retryExecutionF defs fuel taskType parameters
              ⟨policy.maxRetries, 0, e, executionId⟩ k1
            ⟨tr ++ out.trace, out.nextCall, out.outcome⟩
          else ⟨tr, k1, some (.error e)⟩
        | none => ⟨tr, k1, some (.error e)⟩

/-- `TaskExecutor.retryExecution`, fuel-indexed.  On exhaustion it
throws the last error; otherwise it decrements `attemptsRemaining`,
increments `retryCount`, waits the backoff delay, re-invokes `execute`
under the derived retry execution id, and on a thrown error updates
`lastError` and recurses.  The unreachable reads of an absent definition
or policy model the JS TypeError they would throw. -/
def retryExecutionF (defs : TaskDefs) : Nat → String → Params → RetryState → Nat → RunOut
  | 0, _, _, _, k => ⟨[], k, none⟩
  | fuel + 1, taskType, parameters, rs, k =>
    if rs.attemptsRemaining == 0 then ⟨[], k, some (.error rs.lastError)⟩
    else
      match lookupDef defs taskType with
      | none => ⟨[], k, some (.error (.handlerError "TypeError"))⟩
      | some td =>
        match td.retryPolicy with
        | none => ⟨[], k, some (.error (.handlerError "TypeError"))⟩
        | some policy =>
          let rs1 : RetryState :=
            { rs with attemptsRemaining := rs.attemptsRemaining - 1,
                      retryCount := rs.retryCount + 1 }
          let delay := retryDelayMs policy rs1.retryCount
          let retryExecutionId :=
            "retry-" ++ toString rs1.retryCount ++ "-" ++ rs1.originalExecutionId
          let out := executeF defs fuel taskType parameters retryExecutionId k
          match out.outcome with
          | some (.ok r) => ⟨Ev.retryDelay delay :: out.trace, out.nextCall, some (.ok r)⟩
          | some (.error e) =>
            let out2 := retryExecutionF defs fuel taskType parameters
              { rs1 with lastError := e } out.nextCall
            ⟨Ev.retryDelay delay :: (out.trace ++ out2.trace), out2.nextCall, out2.outcome⟩
          | none => ⟨Ev.retryDelay delay :: out.trace, out.nextCall, none⟩

end

/-- The backoff delays occurring in a trace, in order. -/
def delaysOf (tr : List Ev) : List Nat :=
  tr.filterMap (fun ev => match ev with | .retryDelay d => some d | _ => none)

/-! ## History store (models/task-history.js, source kept in CONTRIBUTING.md) -/

/-- One record of the in-memory `taskHistoryArray`.  The `id` and
`createdAt` fields added by `saveTaskHistory` come from the wall clock
and are never read back by the service, so they are not modelled.  The
source stores `startTime`/`endTime` as fixed-format ISO-8601 strings
rendered from epoch milliseconds; that rendering is strictly monotone
and the query comparator compares the strings lexicographically, which
coincides with the numeric order of the epoch values, so the stored
timestamps are modelled by the epoch millisecond values themselves. -/
structure HistoryEntry where
  executionId : String
  taskType : String
  parameters : Params
  startTime : Nat
  endTime : Nat
  duration : Nat
  success : Bool
  result : Option String
  error : Option String
deriving DecidableEq, Repr

/-- `saveTaskHistory`: push the entry, then, when the array exceeds 1000
records, keep only the last 1000 (`slice(length - 1000)`). -/
def saveTaskHistory (arr : List HistoryEntry) (entry : HistoryEntry) : List HistoryEntry :=
  let arr1 := arr ++ [entry]
  if 1000 < arr1.length then arr1.drop (arr1.length - 1000) else arr1

/-- The sort field of a history query (`sortBy`). -/
inductive SortBy where
  | startTime
  | endTime
  | duration
deriving DecidableEq, Repr

/-- Field access `entry[sortBy]`: the sort key the comparator reads
(timestamps by their epoch value, see `HistoryEntry`). -/
def sortKey (sb : SortBy) (e : HistoryEntry) : Nat :=
  match sb with
  | .startTime => e.startTime
  | .endTime => e.endTime
  | .duration => e.duration

/-- JS `x > y` on two sort-key values. -/
def keyGt (x y : Nat) : Bool := decide (y < x)

/-- ASCII lower-casing of one character (the option values compared by
`getTaskHistory` are ASCII words, so this models `toLowerCase`). -/
def lowerChar (c : Char) : Char :=
  if 65 ≤ c.toNat && c.toNat ≤ 90 then Char.ofNat (c.toNat + 32) else c

/-- JS `toLowerCase` on an option string. -/
def lowerStr (s : String) : String := String.mk (s.data.map lowerChar)

/-- Query options, with the defaults destructured in `getTaskHistory`. -/
structure QueryOpts where
  limit : Nat
  offset : Nat
  sortBy : SortBy
  sortOrder : String
deriving Repr

/-- The options object `getTaskHistory` falls back to. -/
def defaultOpts : QueryOpts := ⟨10, 0, .startTime, "desc"⟩

/-- The comparator of `getTaskHistory` as a total boolean order: `a` may
precede `b` exactly when the comparator does not return 1 on `(a, b)`.
For `desc` the comparator is `bValue > aValue ? 1 : -1`, otherwise
`aValue > bValue ? 1 : -1`. -/
def entryLe (sb : SortBy) (descOrder : Bool) (a b : HistoryEntry) : Bool :=
  if descOrder then !(keyGt (sortKey sb b) (sortKey sb a))
  else !(keyGt (sortKey sb a) (sortKey sb b))

/-- The comparator order as a decidable relation, for sorting. -/
def entryRel (sb : SortBy) (descOrder : Bool) (a b : HistoryEntry) : Prop :=
  entryLe sb descOrder a b = true

instance entryRelDec (sb : SortBy) (descOrder : Bool) : DecidableRel (entryRel sb descOrder) :=
  fun _ _ => instDecidableEqBool _ _

/-- The pagination envelope returned by `getTaskHistory`. -/
structure Pagination where
  total : Nat
  limit : Nat
  offset : Nat
  hasMore : Bool
deriving DecidableEq, Repr

/-- The result envelope of `getTaskHistory`. -/
structure QueryResult where
  history : List HistoryEntry
  pagination : Pagination
deriving DecidableEq, Repr

/-- `getTaskHistory`: filter by exact task type when one is provided,
sort by the comparator (the JS engine sort is modelled by any comparison
sort over the comparator order; insertion sort is used), and paginate
with `slice(offset, offset+limit)`.  The second component is the store
array after the call: with a task type the filter produced a fresh array
and the store is untouched, but with no task type `filteredHistory`
aliases `taskHistoryArray` and the in-place `sort()` reorders the store
itself. -/
def getTaskHistory (arr : List HistoryEntry) (taskType : Option String)
    (opts : QueryOpts) : QueryResult × List HistoryEntry :=
  let filtered : List HistoryEntry :=
    match taskType with
    | some t => arr.filter (fun e => e.taskType == t)
    | none => arr
  let descOrder := lowerStr opts.sortOrder == "desc"
  let sorted := filtered.insertionSort (entryRel opts.sortBy descOrder)
  let paginated := (sorted.drop opts.offset).take opts.limit
  let newArr :=
    match taskType with
    | some _ => arr
    | none => sorted
  (⟨paginated,
    ⟨sorted.length, opts.limit, opts.offset,
      decide (opts.offset + opts.limit < sorted.length)⟩⟩, newArr)

/-- A history-store operation: one `saveTaskHistory` append or one
`getTaskHistory` read (which, without a filter, reorders the buffer). -/
inductive HOp where
  | save (entry : HistoryEntry)
  | query (taskType : Option String) (opts : QueryOpts)

/-- Apply a sequence of store operations to the buffer. -/
def applyHOps : List HOp → List HistoryEntry → List HistoryEntry
  | [], arr => arr
  | .save e :: rest, arr => applyHOps rest (saveTaskHistory arr e)
  | .query t o :: rest, arr => applyHOps rest (getTaskHistory arr t o).2

/-! ## Scheduler controller (scheduler.js) -/

/-- A node-cron job handle: its identity, the expression it was created
with, and whether `stop()` has been called on it (a stopped job never
fires again). -/
structure CronJob where
  jobId : Nat
  expr : String
  running : Bool
deriving DecidableEq, Repr

/-- Scheduler state: every cron job ever created (so that stopped,
replaced jobs remain observable), the live `scheduledJobs` map as an
association list in insertion order, and the next fresh job identity. -/
structure SchedState where
  jobs : List CronJob
  scheduledJobs : List (String × Nat)
  nextJobId : Nat
deriving DecidableEq, Repr

/-- The state before `setupScheduler` has scheduled anything. -/
def emptySched : SchedState := ⟨[], [], 0⟩

/-- `job.stop()` on the job with the given identity. -/
def stopJob (jobs : List CronJob) (jid : Nat) : List CronJob :=
  jobs.map (fun j => if j.jobId == jid then { j with running := false } else j)

/-- JS `Map.prototype.set`: replace the binding in place when the key is
present, append it otherwise. -/
def tableSet (tbl : List (String × Nat)) (t : String) (jid : Nat) : List (String × Nat) :=
  if tbl.any (fun kv => kv.1 == t) then
    tbl.map (fun kv => if kv.1 == t then (t, jid) else kv)
  else tbl ++ [(t, jid)]

/-- JS `Map.prototype.get` on the schedule table. -/
def tableGet (tbl : List (String × Nat)) (t : String) : Option Nat :=
  (tbl.find? (fun kv => kv.1 == t)).map (·.2)

/-- `scheduleTask`: throw for an unknown task type, throw for a cron
expression rejected by `cron.validate` (an external predicate), stop the
previously scheduled job for this type when one exists, create the new
job and store it in the table. -/
def scheduleTask (defs : TaskDefs) (cronValid : String → Bool) (st : SchedState)
    (taskType cronExpression : String) : SchedState × Except TErr Bool :=
  if (lookupDef defs taskType).isNone then
    (st, .error (.unknownTaskType taskType))
  else if !cronValid cronExpression then
    (st, .error (.invalidCronExpression cronExpression taskType))
  else
    let st1 :=
      match tableGet st.scheduledJobs taskType with
      | some jid => { st with jobs := stopJob st.jobs jid }
      | none => st
    let job : CronJob := ⟨st1.nextJobId, cronExpression, true⟩
    ({ jobs := st1.jobs ++ [job],
       scheduledJobs := tableSet st1.scheduledJobs taskType job.jobId,
       nextJobId := st1.nextJobId + 1 }, .ok true)

/-- Apply a sequence of `scheduleTask` calls (a thrown error leaves the
state unchanged, as in the source where every mutation follows the two
validations). -/
def applySchedule (defs : TaskDefs) (cronValid : String → Bool) :
    List (String × String) → SchedState → SchedState
  | [], st => st
  | (t, e) :: rest, st =>
    applySchedule defs cronValid rest (scheduleTask defs cronValid st t e).1

/-- The `forEach` loop of `initialize`: schedule every definition that
carries a `cronSchedule`, in registry order; a thrown error aborts the
iteration and propagates. -/
def initSchedule (defs : TaskDefs) (cronValid : String → Bool) :
    List (String × TaskDefinition) → SchedState → SchedState × Except TErr Unit
  | [], st => (st, .ok ())
  | (t, d) :: rest, st =>
    match d.cronSchedule with
    | none => initSchedule defs cronValid rest st
    | some expr =>
      match scheduleTask defs cronValid st t expr with
      | (st1, .ok _) => initSchedule defs cronValid rest st1
      | (st1, .error e) => (st1, .error e)

/-- `initialize` (scheduler.js): run the scheduling loop over the whole
registry; on success set `ready = true`, on a thrown error leave
`ready = false` and re-throw.  Returns (state, ready, result). -/
def initScheduler (defs : TaskDefs) (cronValid : String → Bool) (st : SchedState) :
    SchedState × Bool × Except TErr Unit :=
  match initSchedule defs cronValid defs st with
  | (st1, .ok _) => (st1, true, .ok ())
  | (st1, .error e) => (st1, false, .error e)

/-- The success envelope returned by `executeTask`. -/
structure ExecResult where
  executionId : String
  success : Bool
  startTime : Nat
  endTime : Nat
  duration : Nat
  result : String
deriving DecidableEq, Repr

/-- `executeTask` (scheduler.js): delegate to the executor and, on
either settlement, append one history record before returning the
success envelope or re-throwing the terminal error.  The execution id
and the clock readings (epoch milliseconds; the record stores their
ISO renderings, modelled by the epoch values, see `HistoryEntry`) are
external inputs.  Returns the store after the call and the settled
outcome (`none` when the execution chain never settles, in which case
nothing is written). -/
def executeTask (defs : TaskDefs) (fuel : Nat) (store : List HistoryEntry)
    (taskType : String) (parameters : Params) (executionId : String)
    (startMs endMs : Nat) :
    List HistoryEntry × Option (Except TErr ExecResult) :=
  let out := executeF defs fuel taskType parameters executionId 0
  match out.outcome with
  | none => (store, none)
  | some (.ok r) =>
    let entry : HistoryEntry :=
      ⟨executionId, taskType, parameters, startMs, endMs, endMs - startMs,
        true, some r, none⟩
    (saveTaskHistory store entry,
      some (.ok ⟨executionId, true, startMs, endMs, endMs - startMs, r⟩))
  | some (.error e) =>
    let entry : HistoryEntry :=
      ⟨executionId, taskType, parameters, startMs, endMs, endMs - startMs,
        false, none, some e.message⟩
    (saveTaskHistory store entry, some (.error e))

deriving instance DecidableEq for Except

/-- Below capacity, an append evicts nothing. -/
theorem saveTaskHistory_below (s : List HistoryEntry) (e : HistoryEntry)
    (h : s.length < 1000) : saveTaskHistory s e = s ++ [e] := by
  have h2 : ¬ 1000 < (s ++ [e]).length := by
    simp only [List.length_append, List.length_singleton]
    omega
  simp only [saveTaskHistory]
  rw [if_neg h2]

/-! ## Concrete scenarios used by witnesses and counterexamples -/

/-- A task whose handler rejects with the retryable message `boom` on
every invocation, with `maxRetries = 3` and no retryable-error filter. -/
def tdC1 : TaskDefinition :=
  ⟨none, none, [], none, some ⟨3, none, none, none⟩, fun _ _ => ⟨some 0, .error "boom"⟩⟩

/-- Registry holding only the always-failing task. -/
def defsC1 : TaskDefs := [("job", tdC1)]

/-- A task whose handler rejects with the retryable message on its first
invocation and with a non-retryable message on every later one, so that
a single retry chain runs to exhaustion. -/
def tdC6 (base max : Option Nat) (n : Nat) : TaskDefinition :=
  ⟨none, none, [], none, some ⟨n, base, max, some [.strPat "RETRYME"]⟩,
    fun _ k => if k == 0 then ⟨some 0, .error "RETRYME"⟩ else ⟨some 0, .error "FATAL"⟩⟩

/-- Registry holding only the exhausting-chain task. -/
def defsC6 (base max : Option Nat) (n : Nat) : TaskDefs := [("job", tdC6 base max n)]

/-- The retry policy of `tdC6`. -/
def polC6 (base max : Option Nat) (n : Nat) : RetryPolicy :=
  ⟨n, base, max, some [.strPat "RETRYME"]⟩

/-- A task whose schema rejects every parameters value, with a retry
policy that has no `retryableErrors` filter. -/
def tdC4 : TaskDefinition :=
  ⟨none, some (.zodSchema (fun _ => false) (fun _ => "bad")), [], none,
    some ⟨1, none, none, none⟩, fun _ _ => ⟨some 0, .ok "r"⟩⟩

/-- A task whose schema rejects every parameters value, with a retry
policy whose `retryableErrors` filter matches no validation message. -/
def tdC4w : TaskDefinition :=
  ⟨none, some (.zodSchema (fun _ => false) (fun _ => "bad")), [], none,
    some ⟨2, none, none, some [.strPat "ECONN"]⟩, fun _ _ => ⟨some 0, .ok "r"⟩⟩

/-- A task with no explicit timeout whose handler settles immediately. -/
def tdC10 : TaskDefinition :=
  ⟨none, none, [], none, none, fun _ _ => ⟨some 1, .ok "r"⟩⟩

/-- A task with no retry policy whose handler only settles at 400000 ms,
well past the default 300000 ms deadline. -/
def tdC5 : TaskDefinition :=
  ⟨none, none, [], none, none, fun _ _ => ⟨some 400000, .ok "late"⟩⟩

/-- A stored history record with taskType `a`, the earliest start. -/
def entA1 : HistoryEntry := ⟨"x1", "a", [], 100, 1100, 1000, true, some "r", none⟩

/-- A stored history record with taskType `a`, a later start. -/
def entA2 : HistoryEntry := ⟨"x2", "a", [], 200, 1200, 1000, true, some "r", none⟩

/-- A stored history record with taskType `b`, the latest start. -/
def entB3 : HistoryEntry := ⟨"x3", "b", [], 300, 800, 500, false, none, some "boom"⟩

/-! ## Claim theorems -/

/-- C10: `execute` arms the deadline race with `timeoutMs` when the
definition sets a truthy value, and with the default 300000 ms (5
minutes) when the field is absent or falsy, for any attempt that gets
past parameter validation: the first event of the call is the deadline
being armed with exactly that value. -/
theorem C10_default_deadline (defs : TaskDefs) (tT : String) (td : TaskDefinition)
    (params : Params) (eid : String) (k fuel : Nat)
    (hlook : lookupDef defs tT = some td)
    (hval : validateParameters td params = .ok ()) :
    (executeF defs (fuel + 1) tT params eid k).trace.head? =
      some (.deadlineSet (match td.timeoutMs with
        | some v => if v == 0 then 300000 else v
        | none => 300000)) := by
  have hTo : (match td.timeoutMs with
      | some v => if v == 0 then 300000 else v
      | none => 300000) = orDefault td.timeoutMs 300000 := by
    cases td.timeoutMs <;> rfl
  rw [hTo]
  simp only [executeF, hlook]
  rw [show attemptOnce tT td params eid k =
      ([Ev.deadlineSet (orDefault td.timeoutMs 300000), Ev.handlerCall eid], k + 1,
        raceOutcome tT (orDefault td.timeoutMs 300000)
          (td.handler (mergeParams td.defaultParameters params) k)) by
    simp only [attemptOnce, hval]]
  cases raceOutcome tT (orDefault td.timeoutMs 300000)
      (td.handler (mergeParams td.defaultParameters params) k) with
  | ok r => rfl
  | error e =>
    cases td.retryPolicy with
    | none => rfl
    | some policy =>
      by_cases hs : shouldRetry policy e <;> simp [hs]

/-- Witness for C10 at a concrete registry with an absent timeout. -/
theorem C10_default_deadline_witness :
    (executeF [("t", tdC10)] 1 "t" [] "e" 0).trace.head? =
      some (.deadlineSet 300000) :=
  C10_default_deadline [("t", tdC10)] "t" tdC10 [] "e" 0 0 rfl rfl

/-- C5: when the handler has not settled within the effective deadline
(it settles strictly later, or never), the timer wins the race and the
attempt fails with ExecutionTimeout; the conclusion does not depend on
the handler outcome value, so a result arriving after the timeout is
discarded.  Stated for a definition with no retry policy so that the
thrown error is the settled outcome of `execute` itself. -/
theorem C5_timeout_race (defs : TaskDefs) (tT : String) (td : TaskDefinition)
    (params : Params) (eid : String) (k fuel : Nat)
    (hlook : lookupDef defs tT = some td)
    (hval : validateParameters td params = .ok ())
    (hpol : td.retryPolicy = none)
    (hlate : ∀ d, (td.handler (mergeParams td.defaultParameters params) k).settleMs = some d →
      orDefault td.timeoutMs 300000 < d) :
    executeF defs (fuel + 1) tT params eid k =
      ⟨[.deadlineSet (orDefault td.timeoutMs 300000), .handlerCall eid], k + 1,
        some (.error (.executionTimeout tT (orDefault td.timeoutMs 300000)))⟩ := by
  have hrace : raceOutcome tT (orDefault td.timeoutMs 300000)
      (td.handler (mergeParams td.defaultParameters params) k) =
      .error (.executionTimeout tT (orDefault td.timeoutMs 300000)) := by
    unfold raceOutcome
    cases hst : (td.handler (mergeParams td.defaultParameters params) k).settleMs with
    | none => rfl
    | some d =>
      have := hlate d hst
      simp [Nat.not_lt.mpr (Nat.le_of_lt this), Nat.not_lt_of_lt this]
  simp only [executeF, hlook]
  rw [show attemptOnce tT td params eid k =
      ([Ev.deadlineSet (orDefault td.timeoutMs 300000), Ev.handlerCall eid], k + 1,
        raceOutcome tT (orDefault td.timeoutMs 300000)
          (td.handler (mergeParams td.defaultParameters params) k)) by
    simp only [attemptOnce, hval]]
  rw [hrace, hpol]

/-- Witness for C5: a handler settling at 400000 ms against the default
300000 ms deadline times out. -/
theorem C5_timeout_race_witness :
    executeF [("t", tdC5)] 1 "t" [] "e" 0 =
      ⟨[.deadlineSet 300000, .handlerCall "e"], 1,
        some (.error (.executionTimeout "t" 300000))⟩ :=
  C5_timeout_race [("t", tdC5)] "t" tdC5 [] "e" 0 0 rfl rfl rfl
    (fun d hd => by cases hd; decide)

/-- C2 counterexample: `executeTask` on a task type absent from the
registry fails with UnknownTaskType but does write a history record —
the store is not left unchanged, refuting the claim as stated. -/
theorem C2_counterexample :
    (executeTask [] 1 [] "missing-type" [] "e1" 0 5).2 =
        some (.error (.unknownTaskType "missing-type"))
      ∧ (executeTask [] 1 [] "missing-type" [] "e1" 0 5).1 ≠ [] := by
  constructor
  · rfl
  · decide

/-- C2 amended: for every task type absent from the registry,
`executeTask` fails with UnknownTaskType and appends exactly one
ExecutionRecord to the History Store, with `success = false` and the
UnknownTaskType message as its error (one plain append whenever the
store is below capacity). -/
theorem C2_unknown_type_writes_failure (defs : TaskDefs) (fuel : Nat)
    (store : List HistoryEntry) (tT : String) (params : Params) (eid : String)
    (startMs endMs : Nat)
    (hlook : lookupDef defs tT = none) :
    executeTask defs (fuel + 1) store tT params eid startMs endMs =
      (saveTaskHistory store
        ⟨eid, tT, params, startMs, endMs, endMs - startMs, false, none,
          some ("Unknown task type: " ++ tT)⟩,
        some (.error (.unknownTaskType tT)))
    ∧ (store.length < 1000 →
        (executeTask defs (fuel + 1) store tT params eid startMs endMs).1 =
          store ++ [⟨eid, tT, params, startMs, endMs, endMs - startMs, false, none,
            some ("Unknown task type: " ++ tT)⟩]) := by
  have hexec : executeF defs (fuel + 1) tT params eid 0 =
      ⟨[], 0, some (.error (.unknownTaskType tT))⟩ := by
    simp only [executeF, hlook]
  have hmain : executeTask defs (fuel + 1) store tT params eid startMs endMs =
      (saveTaskHistory store
        ⟨eid, tT, params, startMs, endMs, endMs - startMs, false, none,
          some ("Unknown task type: " ++ tT)⟩,
        some (.error (.unknownTaskType tT))) := by
    simp only [executeTask, hexec, TErr.message]
  refine ⟨hmain, fun hlen => ?_⟩
  rw [hmain]
  exact saveTaskHistory_below store _ hlen

/-- Witness for C2 amended at a concrete one-record store. -/
theorem C2_unknown_type_writes_failure_witness :
    executeTask [] 1 [entA1] "missing" [] "x" 0 3 =
      ([entA1, ⟨"x", "missing", [], 0, 3, 3, false, none,
        some "Unknown task type: missing"⟩],
        some (.error (.unknownTaskType "missing")))
    ∧ [entA1].length < 1000 := by
  refine ⟨?_, by decide⟩
  have h := C2_unknown_type_writes_failure [] 0 [entA1] "missing" [] "x" 0 3 rfl
  exact h.1.trans (by decide)

/-- C4 counterexample: a schema mismatch on a definition whose retry
policy has `retryableErrors` unset does enter the retry loop — the
trace of the call contains a backoff wait, refuting "never enters the
retry loop ... including when retryableErrors is unset". -/
theorem C4_counterexample :
    Ev.retryDelay 1000 ∈ (executeF [("t", tdC4)] 2 "t" [] "e" 0).trace := by
  decide

/-- C4 amended: a parameters value rejected by the zod schema makes
`execute` fail with InvalidParameters immediately (no handler call, no
backoff) when the definition has no retry policy, or when its policy
sets `retryableErrors` and no pattern matches the InvalidParameters
message; with a retry policy whose `retryableErrors` is unset (or
matching), the schema mismatch enters the retry loop like any other
error. -/
theorem C4_invalid_params_no_matching_retry (defs : TaskDefs) (tT : String)
    (td : TaskDefinition) (params : Params) (eid : String) (k fuel : Nat)
    (acc : Params → Bool) (emsg : Params → String)
    (hschema : td.parametersSchema = some (.zodSchema acc emsg))
    (hrej : acc params = false)
    (hlook : lookupDef defs tT = some td)
    (hpol : td.retryPolicy = none ∨
      ∃ p pats, td.retryPolicy = some p ∧ p.retryableErrors = some pats ∧
        ∀ pat ∈ pats,
          patMatch pat (TErr.message (.invalidParameters (emsg params))) = false) :
    executeF defs (fuel + 1) tT params eid k =
      ⟨[], k, some (.error (.invalidParameters (emsg params)))⟩ := by
  have hatt : attemptOnce tT td params eid k =
      ([], k, .error (.invalidParameters (emsg params))) := by
    simp only [attemptOnce, validateParameters, hschema, hrej]
    rfl
  simp only [executeF, hlook, hatt]
  rcases hpol with hnone | ⟨p, pats, hp, hpats, hmatch⟩
  · rw [hnone]
  · rw [hp]
    have hsr : shouldRetry p (.invalidParameters (emsg params)) = false := by
      unfold shouldRetry
      rw [hpats]
      cases hz : (p.maxRetries == 0) with
      | true => simp [hz]
      | false =>
        simp only [hz, Bool.false_eq_true, if_false, List.any_eq_false]
        intro pat hpat
        simp [hmatch pat hpat]
    simp [hsr]

/-- Witness for C4 amended: a rejecting schema with a retry policy whose
only retryable pattern does not match the validation message fails
immediately with InvalidParameters. -/
theorem C4_invalid_params_no_matching_retry_witness :
    executeF [("t", tdC4w)] 3 "t" [] "e" 0 =
      ⟨[], 0, some (.error (.invalidParameters "bad"))⟩ :=
  C4_invalid_params_no_matching_retry [("t", tdC4w)] "t" tdC4w [] "e" 0 2
    (fun _ => false) (fun _ => "bad") rfl rfl rfl
    (Or.inr ⟨⟨2, none, none, some [.strPat "ECONN"]⟩, [.strPat "ECONN"], rfl, rfl,
      by intro pat hpat; simp at hpat; subst hpat; decide⟩)

/-- One attempt against the always-failing retryable task. -/
theorem attemptOnce_C1 (ps : Params) (eid : String) (k : Nat) :
    attemptOnce "job" tdC1 ps eid k =
      ([Ev.deadlineSet 300000, Ev.handlerCall eid], k + 1,
        .error (.handlerError "boom")) := rfl

/-- Joint fuel induction for C1: against the always-failing retryable
task, neither `execute` nor a retry chain with attempts left ever
settles, at any fuel bound. -/
theorem C1_core : ∀ fuel : Nat,
    (∀ eid k, (executeF defsC1 fuel "job" [] eid k).outcome = none)
    ∧ (∀ rs k, rs.attemptsRemaining ≠ 0 →
        (retryExecutionF defsC1 fuel "job" [] rs k).outcome = none) := by
  intro fuel
  induction fuel with
  | zero => exact ⟨fun _ _ => rfl, fun _ _ _ => rfl⟩
  | succ f ih =>
    refine ⟨fun eid k => ?_, fun rs k hrs => ?_⟩
    · have hlook : lookupDef defsC1 "job" = some tdC1 := rfl
      simp only [executeF, hlook, attemptOnce_C1]
      have hsr : shouldRetry ⟨3, none, none, none⟩ (.handlerError "boom") = true := rfl
      simp only [show tdC1.retryPolicy = some ⟨3, none, none, none⟩ from rfl, hsr, if_true]
      exact ih.2 ⟨3, 0, .handlerError "boom", eid⟩ (k + 1) (by simp)
    · have hz : (rs.attemptsRemaining == 0) = false := by
        simpa using hrs
      simp only [retryExecutionF, hz, Bool.false_eq_true, if_false]
      have hlook : lookupDef defsC1 "job" = some tdC1 := rfl
      simp only [hlook]
      simp only [show tdC1.retryPolicy = some ⟨3, none, none, none⟩ from rfl]
      have hout := ih.1 ("retry-" ++ toString (rs.retryCount + 1) ++ "-" ++
        rs.originalExecutionId) k
      cases hres : (executeF defsC1 f "job" []
          ("retry-" ++ toString (rs.retryCount + 1) ++ "-" ++ rs.originalExecutionId)
          k).outcome with
      | none => simp [hres]
      | some v => rw [hres] at hout; exact absurd hout (by simp)

/-- C1: with `maxRetries = 3` and a handler that fails with a retryable
error on every attempt, `execute` never settles at any fuel bound: the
recursive re-invocation of `execute` starts a fresh retry chain with
`attemptsRemaining` reset to `maxRetries` on every retryable failure, so
exhaustion is never reached and the chain never terminates with the last
error — contradicting the claimed bound of at most `maxRetries` retries
followed by a terminal ExhaustedRetries failure. -/
theorem C1_retry_never_exhausts (fuel : Nat) (eid : String) (k : Nat) :
    (executeF defsC1 fuel "job" [] eid k).outcome = none :=
  (C1_core fuel).1 eid k

/-- A retried attempt (invocation index nonzero) against the
exhausting-chain task fails with the non-retryable message. -/
theorem attemptOnce_C6_later (base max : Option Nat) (n : Nat) (eid : String) (k : Nat)
    (hk : (k == 0) = false) :
    attemptOnce "job" (tdC6 base max n) [] eid k =
      ([Ev.deadlineSet 300000, Ev.handlerCall eid], k + 1,
        .error (.handlerError "FATAL")) := by
  have hval : validateParameters (tdC6 base max n) [] = .ok () := rfl
  have hbeh : (tdC6 base max n).handler
      (mergeParams (tdC6 base max n).defaultParameters []) k =
      ⟨some 0, .error "FATAL"⟩ := by
    show (if k == 0 then (⟨some 0, .error "RETRYME"⟩ : HandlerBehavior)
      else ⟨some 0, .error "FATAL"⟩) = _
    simp [hk]
  simp only [attemptOnce, hval, hbeh]
  rfl

/-- A retried execution (invocation index nonzero) against the
exhausting-chain task throws the non-retryable error without further
recursion. -/
theorem executeF_C6_later (base max : Option Nat) (n : Nat) (eid : String) (f k : Nat)
    (hk : (k == 0) = false) :
    executeF (defsC6 base max n) (f + 1) "job" [] eid k =
      ⟨[Ev.deadlineSet 300000, Ev.handlerCall eid], k + 1,
        some (.error (.handlerError "FATAL"))⟩ := by
  have hlook : lookupDef (defsC6 base max n) "job" = some (tdC6 base max n) := rfl
  have hsr : shouldRetry (polC6 base max n) (.handlerError "FATAL") = false := by
    unfold shouldRetry
    cases hz : (n == 0) with
    | true => simp [polC6, hz]
    | false =>
      simp only [polC6, hz, Bool.false_eq_true, if_false]
      decide
  simp only [executeF, hlook, attemptOnce_C6_later base max n eid k hk]
  simp only [show (tdC6 base max n).retryPolicy = some (polC6 base max n) from rfl,
    hsr, Bool.false_eq_true, if_false]

/-- The retry chain of the exhausting-chain task: starting with `a`
attempts left and retry count `c`, it waits exactly the backoff delays
for retry counts `c+1 .. c+a` and then throws the last error. -/
theorem C6_chain (base max : Option Nat) (n : Nat) (eid : String) :
    ∀ a f c k err, a + 1 ≤ f → (k == 0) = false →
    delaysOf (retryExecutionF (defsC6 base max n) f "job" [] ⟨a, c, err, eid⟩ k).trace =
      (List.range a).map (fun i => retryDelayMs (polC6 base max n) (c + 1 + i))
    ∧ (retryExecutionF (defsC6 base max n) f "job" [] ⟨a, c, err, eid⟩ k).outcome =
      some (.error (if a = 0 then err else .handlerError "FATAL")) := by
  intro a
  induction a with
  | zero =>
    intro f c k err hf _
    obtain ⟨f1, rfl⟩ : ∃ f1, f = f1 + 1 := ⟨f - 1, by omega⟩
    constructor
    · rfl
    · rfl
  | succ a ih =>
    intro f c k err hf hk
    obtain ⟨f1, rfl⟩ : ∃ f1, f = f1 + 1 := ⟨f - 1, by omega⟩
    have hf1 : a + 1 ≤ f1 := by omega
    obtain ⟨f2, hf2⟩ : ∃ f2, f1 = f2 + 1 := ⟨f1 - 1, by omega⟩
    have hz : ((a + 1 : Nat) == 0) = false := by simp
    have hlook : lookupDef (defsC6 base max n) "job" = some (tdC6 base max n) := rfl
    have hinner : executeF (defsC6 base max n) f1 "job" []
        ("retry-" ++ toString (c + 1) ++ "-" ++ eid) k =
        ⟨[Ev.deadlineSet 300000, Ev.handlerCall ("retry-" ++ toString (c + 1) ++ "-" ++ eid)],
          k + 1, some (.error (.handlerError "FATAL"))⟩ := by
      rw [hf2]
      exact executeF_C6_later base max n _ f2 k hk
    have hrec := ih f1 (c + 1) (k + 1) (.handlerError "FATAL") hf1 (by simp)
    simp only [retryExecutionF, hz, Bool.false_eq_true, if_false, hlook,
      show (tdC6 base max n).retryPolicy = some (polC6 base max n) from rfl]
    simp only [show ((⟨a + 1, c, err, eid⟩ : RetryState).attemptsRemaining) = a + 1 from rfl,
      show ((⟨a + 1, c, err, eid⟩ : RetryState).retryCount) = c from rfl,
      show ((⟨a + 1, c, err, eid⟩ : RetryState).originalExecutionId) = eid from rfl,
      Nat.add_sub_cancel]
    rw [hinner]
    constructor
    · simp only [delaysOf, List.filterMap_cons, List.filterMap_append, List.filterMap_cons]
      rw [show (retryExecutionF (defsC6 base max n) f1 "job" []
          ⟨a, c + 1, .handlerError "FATAL", eid⟩ (k + 1)).trace.filterMap
          (fun ev => match ev with | .retryDelay d => some d | _ => none) =
          delaysOf (retryExecutionF (defsC6 base max n) f1 "job" []
            ⟨a, c + 1, .handlerError "FATAL", eid⟩ (k + 1)).trace from rfl]
      rw [hrec.1]
      simp only [List.range_succ_eq_map, List.map_cons, List.map_map,
        List.filterMap_nil, List.nil_append, Nat.add_zero]
      congr 1
      apply List.map_congr_left
      intro i _
      simp only [Function.comp_apply]
      congr 1
      omega
    · rw [hrec.2]
      simp [Nat.succ_ne_zero]

/-- C6: for a retry chain that runs to exhaustion with `maxRetries = n`,
the delay before the k-th retry (k = 1..n) is exactly
`min(baseDelayMs * 2^(k-1), maxDelayMs)`, with `baseDelayMs` defaulting
to 1000 and `maxDelayMs` to 30000 when unset or falsy. -/
theorem C6_backoff_formula (base max : Option Nat) (n : Nat) (eid : String)
    (h : 1 ≤ n) :
    delaysOf (executeF (defsC6 base max n) (n + 2) "job" [] eid 0).trace =
      (List.range n).map (fun i =>
        min (orDefault base 1000 * 2 ^ i) (orDefault max 30000))
    ∧ (executeF (defsC6 base max n) (n + 2) "job" [] eid 0).outcome =
      some (.error (.handlerError "FATAL")) := by
  have hlook : lookupDef (defsC6 base max n) "job" = some (tdC6 base max n) := rfl
  have hattOne : attemptOnce "job" (tdC6 base max n) [] eid 0 =
      ([Ev.deadlineSet 300000, Ev.handlerCall eid], 1,
        .error (.handlerError "RETRYME")) := rfl
  have hsr : shouldRetry (polC6 base max n) (.handlerError "RETRYME") = true := by
    unfold shouldRetry
    have hz : (n == 0) = false := by
      simp only [beq_eq_false_iff_ne, ne_eq]
      omega
    simp only [polC6, hz, Bool.false_eq_true, if_false]
    decide
  have hchain := C6_chain base max n eid n (n + 1) 0 1 (.handlerError "RETRYME")
    (by omega) (by simp)
  simp only [show n + 2 = (n + 1) + 1 from rfl, executeF, hlook, hattOne,
    show (tdC6 base max n).retryPolicy = some (polC6 base max n) from rfl,
    hsr, if_true]
  constructor
  · simp only [delaysOf, List.filterMap_append, List.filterMap_cons, List.filterMap_nil]
    rw [show (retryExecutionF (defsC6 base max n) (n + 1) "job" []
        ⟨(polC6 base max n).maxRetries, 0, .handlerError "RETRYME", eid⟩ 1).trace.filterMap
        (fun ev => match ev with | .retryDelay d => some d | _ => none) =
        delaysOf (retryExecutionF (defsC6 base max n) (n + 1) "job" []
          ⟨n, 0, .handlerError "RETRYME", eid⟩ 1).trace from rfl]
    rw [hchain.1]
    simp only [List.nil_append]
    apply List.map_congr_left
    intro i _
    simp only [retryDelayMs, polC6]
    have hexp : 0 + 1 + i - 1 = i := by omega
    rw [hexp]
  · rw [show (retryExecutionF (defsC6 base max n) (n + 1) "job" []
        ⟨(polC6 base max n).maxRetries, 0, .handlerError "RETRYME", eid⟩ 1) =
        (retryExecutionF (defsC6 base max n) (n + 1) "job" []
          ⟨n, 0, .handlerError "RETRYME", eid⟩ 1) from rfl]
    rw [hchain.2]
    have : ¬ (n = 0) := by omega
    simp [this]

/-- Witness for C6 at the values named by the spec: baseDelayMs 1000,
maxDelayMs 30000, maxRetries 3 give successive delays 1000, 2000, 4000. -/
theorem C6_backoff_formula_witness :
    1 ≤ 3 ∧ delaysOf (executeF (defsC6 (some 1000) (some 30000) 3) 5 "job" [] "e" 0).trace
      = [1000, 2000, 4000] :=
  ⟨by decide,
    ((C6_backoff_formula (some 1000) (some 30000) 3 "e" (by decide)).1).trans (by decide)⟩

/-- The append always leaves at most 1000 records, keeping the newest. -/
theorem saveTaskHistory_length (s : List HistoryEntry) (e : HistoryEntry) :
    (saveTaskHistory s e).length = min (s.length + 1) 1000 := by
  simp only [saveTaskHistory]
  by_cases h : 1000 < (s ++ [e]).length
  · rw [if_pos h]
    simp only [List.length_drop, List.length_append, List.length_singleton] at h ⊢
    omega
  · rw [if_neg h]
    simp only [List.length_append, List.length_singleton] at h ⊢
    omega

/-- The capacity bound is preserved by every sequence of operations. -/
theorem applyHOps_length : ∀ (ops : List HOp) (s : List HistoryEntry),
    s.length ≤ 1000 → (applyHOps ops s).length ≤ 1000 := by
  intro ops
  induction ops with
  | nil => intro s hs; exact hs
  | cons op rest ih =>
    intro s hs
    cases op with
    | save e =>
      apply ih
      rw [saveTaskHistory_length]
      omega
    | query t o =>
      apply ih
      cases t with
      | none =>
        simp only [getTaskHistory]
        rw [List.length_insertionSort]
        exact hs
      | some t0 => exact hs

/-- C3 counterexample: a filterless `getTaskHistory` read reorders the
stored buffer in place (the default descending sort on startTime swaps
the two records), so the store is not left unchanged by a read. -/
theorem C3_counterexample :
    (getTaskHistory [entA1, entA2] none defaultOpts).2 ≠ [entA1, entA2] := by
  decide

/-- C3 amended: `saveTaskHistory` keeps at most 1000 records, evicting
only from the front of the buffer (the earliest-appended records, a
plain append below capacity), and the bound holds under every sequence
of operations; a `getTaskHistory` read with a taskType filter leaves the
buffer unchanged, but a filterless read reorders the buffer in place to
the requested sort order — a permutation that loses and adds nothing. -/
theorem C3_ring_buffer_amended (s : List HistoryEntry) (e : HistoryEntry)
    (t : String) (o : QueryOpts) (ops : List HOp) (h : s.length ≤ 1000) :
    (saveTaskHistory s e).length = min (s.length + 1) 1000
    ∧ List.IsSuffix (saveTaskHistory s e) (s ++ [e])
    ∧ (s.length < 1000 → saveTaskHistory s e = s ++ [e])
    ∧ (getTaskHistory s (some t) o).2 = s
    ∧ List.Perm (getTaskHistory s none o).2 s
    ∧ (applyHOps ops s).length ≤ 1000 := by
  refine ⟨saveTaskHistory_length s e, ?_, saveTaskHistory_below s e, rfl, ?_,
    applyHOps_length ops s h⟩
  · simp only [saveTaskHistory]
    by_cases hc : 1000 < (s ++ [e]).length
    · rw [if_pos hc]
      exact List.drop_suffix _ _
    · rw [if_neg hc]
  · simp only [getTaskHistory]
    exact List.perm_insertionSort _ s

/-- Witness for C3 amended at a concrete two-record store. -/
theorem C3_ring_buffer_amended_witness :
    saveTaskHistory [entA1] entA2 = [entA1, entA2]
    ∧ (getTaskHistory [entA1] (some "a") defaultOpts).2 = [entA1] := by
  have h := C3_ring_buffer_amended [entA1] entA2 "a" defaultOpts [] (by decide)
  exact ⟨h.2.2.1 (by decide), h.2.2.2.1⟩

/-- The records `getTaskHistory` filters down to: exact match on the
task type when one is provided, the whole store otherwise. -/
def filteredOf (s : List HistoryEntry) (taskType : Option String) : List HistoryEntry :=
  match taskType with
  | some t => s.filter (fun e => e.taskType == t)
  | none => s

/-- The `desc` branch of the query comparator, as an equation. -/
theorem entryLe_desc (sb : SortBy) (a b : HistoryEntry) :
    entryLe sb true a b = !(keyGt (sortKey sb b) (sortKey sb a)) := rfl

/-- The ascending branch of the query comparator, as an equation. -/
theorem entryLe_asc (sb : SortBy) (a b : HistoryEntry) :
    entryLe sb false a b = !(keyGt (sortKey sb a) (sortKey sb b)) := rfl

/-- The query comparator is total. -/
theorem entryLe_total (sb : SortBy) (d : Bool) (a b : HistoryEntry) :
    (entryLe sb d a b || entryLe sb d b a) = true := by
  cases d <;>
    simp only [entryLe_desc, entryLe_asc, keyGt, Bool.or_eq_true,
      Bool.not_eq_true', decide_eq_false_iff_not, not_lt] <;>
    omega

/-- The query comparator is transitive. -/
theorem entryLe_trans (sb : SortBy) (d : Bool) (a b c : HistoryEntry)
    (h1 : entryLe sb d a b = true) (h2 : entryLe sb d b c = true) :
    entryLe sb d a c = true := by
  cases d <;>
    simp only [entryLe_desc, entryLe_asc, keyGt,
      Bool.not_eq_true', decide_eq_false_iff_not, not_lt] at h1 h2 ⊢ <;>
    omega

/-- C7: the query result of `getTaskHistory` honors the documented
contract: at most `limit` records; every returned record matches the
filter; `total` is the filtered count, not the store size; `hasMore`
holds exactly when `offset + limit` is below the filtered count; and the
page is exactly positions `offset..offset+limit-1` of a sorted
permutation of the filtered set (sorting applied before pagination). -/
theorem C7_query_contract (s : List HistoryEntry) (tOpt : Option String)
    (opts : QueryOpts) :
    (getTaskHistory s tOpt opts).1.history.length ≤ opts.limit
    ∧ (∀ t, tOpt = some t →
        ∀ e ∈ (getTaskHistory s tOpt opts).1.history, e.taskType = t)
    ∧ (getTaskHistory s tOpt opts).1.pagination.total = (filteredOf s tOpt).length
    ∧ ((getTaskHistory s tOpt opts).1.pagination.hasMore = true ↔
        opts.offset + opts.limit < (filteredOf s tOpt).length)
    ∧ ∃ srt : List HistoryEntry,
        srt.Perm (filteredOf s tOpt)
        ∧ srt.Pairwise (entryRel opts.sortBy (lowerStr opts.sortOrder == "desc"))
        ∧ (getTaskHistory s tOpt opts).1.history =
            (srt.drop opts.offset).take opts.limit := by
  have hhist : (getTaskHistory s tOpt opts).1.history =
      (((filteredOf s tOpt).insertionSort
        (entryRel opts.sortBy (lowerStr opts.sortOrder == "desc"))).drop
        opts.offset).take opts.limit := by
    cases tOpt <;> rfl
  have htotal : (getTaskHistory s tOpt opts).1.pagination.total =
      ((filteredOf s tOpt).insertionSort
        (entryRel opts.sortBy (lowerStr opts.sortOrder == "desc"))).length := by
    cases tOpt <;> rfl
  have hmore : (getTaskHistory s tOpt opts).1.pagination.hasMore =
      decide (opts.offset + opts.limit <
        ((filteredOf s tOpt).insertionSort
          (entryRel opts.sortBy (lowerStr opts.sortOrder == "desc"))).length) := by
    cases tOpt <;> rfl
  haveI htr : IsTrans HistoryEntry (entryRel opts.sortBy (lowerStr opts.sortOrder == "desc")) :=
    ⟨fun a b c h1 h2 =>
      entryLe_trans opts.sortBy (lowerStr opts.sortOrder == "desc") a b c h1 h2⟩
  haveI hto : IsTotal HistoryEntry (entryRel opts.sortBy (lowerStr opts.sortOrder == "desc")) :=
    ⟨fun a b => Bool.or_eq_true_iff.mp
      (entryLe_total opts.sortBy (lowerStr opts.sortOrder == "desc") a b)⟩
  refine ⟨?_, ?_, ?_, ?_, ?_⟩
  · rw [hhist]
    exact List.length_take_le _ _
  · intro t ht e he
    rw [hhist] at he
    have h1 : e ∈ (filteredOf s tOpt).insertionSort
        (entryRel opts.sortBy (lowerStr opts.sortOrder == "desc")) :=
      List.drop_subset _ _ (List.take_subset _ _ he)
    rw [List.mem_insertionSort] at h1
    rw [ht] at h1
    simp only [filteredOf, List.mem_filter, beq_iff_eq] at h1
    exact h1.2
  · rw [htotal, List.length_insertionSort]
  · rw [hmore, List.length_insertionSort]
    exact decide_eq_true_iff
  · refine ⟨(filteredOf s tOpt).insertionSort
      (entryRel opts.sortBy (lowerStr opts.sortOrder == "desc")), ?_, ?_, hhist⟩
    · exact List.perm_insertionSort _ _
    · exact List.sorted_insertionSort _ (filteredOf s tOpt)

/-- Witness for C7 at a concrete three-record store filtered to type a:
two records match, one page of one record is returned, more remain. -/
theorem C7_query_contract_witness :
    (getTaskHistory [entA1, entB3, entA2] (some "a")
      ⟨1, 0, .startTime, "desc"⟩).1.pagination.total = 2
    ∧ (getTaskHistory [entA1, entB3, entA2] (some "a")
      ⟨1, 0, .startTime, "desc"⟩).1.pagination.hasMore = true
    ∧ entA2.taskType = "a" := by
  have h := C7_query_contract [entA1, entB3, entA2] (some "a") ⟨1, 0, .startTime, "desc"⟩
  exact ⟨h.2.2.1.trans (by decide), h.2.2.2.1.mpr (by decide),
    h.2.1 "a" rfl entA2 (by decide)⟩

/-! ## Schedule table lemmas -/

/-- The schedule-table invariant maintained by the controller: the table
has at most one entry per task type, every job identity in the table and
in the job list is below the fresh counter, and every still-running job
is referenced by some table entry (a job dropped from the table has been
stopped, so its future ticks never fire). -/
def SchedInv (st : SchedState) : Prop :=
  (st.scheduledJobs.map Prod.fst).Nodup
  ∧ (∀ kv ∈ st.scheduledJobs, kv.2 < st.nextJobId)
  ∧ (∀ j ∈ st.jobs, j.jobId < st.nextJobId)
  ∧ (∀ j ∈ st.jobs, j.running = true → ∃ kv ∈ st.scheduledJobs, kv.2 = j.jobId)

instance schedInvDec (st : SchedState) : Decidable (SchedInv st) := by
  unfold SchedInv
  infer_instance

/-- Keys of the table after `Map.set`: unchanged when the key was
present, the key appended otherwise. -/
theorem tableSet_map_fst (tbl : List (String × Nat)) (t : String) (jid : Nat) :
    (tableSet tbl t jid).map Prod.fst =
      if tbl.any (fun kv => kv.1 == t) then tbl.map Prod.fst
      else tbl.map Prod.fst ++ [t] := by
  unfold tableSet
  by_cases h : tbl.any (fun kv => kv.1 == t) = true
  · rw [if_pos h, if_pos h, List.map_map]
    apply List.map_congr_left
    intro kv _
    by_cases hkt : (kv.1 == t) = true
    · simp only [Function.comp_apply, hkt, if_true]
      exact (beq_iff_eq.mp hkt).symm
    · simp only [Function.comp_apply, hkt]
      rw [if_neg]
      simp [hkt]
  · rw [if_neg h, if_neg h, List.map_append]
    rfl

/-- `Map.set` preserves key uniqueness. -/
theorem nodup_tableSet (tbl : List (String × Nat)) (t : String) (jid : Nat)
    (h : (tbl.map Prod.fst).Nodup) : ((tableSet tbl t jid).map Prod.fst).Nodup := by
  rw [tableSet_map_fst]
  by_cases hp : tbl.any (fun kv => kv.1 == t) = true
  · rw [if_pos hp]; exact h
  · rw [if_neg hp]
    rw [List.nodup_append]
    refine ⟨h, List.nodup_singleton t, ?_⟩
    intro x hx hxt
    rw [List.mem_singleton] at hxt
    rw [List.mem_map] at hx
    obtain ⟨kv, hkv, hfst⟩ := hx
    apply hp
    refine List.any_eq_true.mpr ⟨kv, hkv, ?_⟩
    rw [hfst, hxt]
    exact beq_self_eq_true t

/-- Every entry of the updated table is the new binding or an untouched
entry with a different key. -/
theorem mem_tableSet (tbl : List (String × Nat)) (t : String) (jid : Nat)
    (kv : String × Nat) (h : kv ∈ tableSet tbl t jid) :
    kv = (t, jid) ∨ (kv ∈ tbl ∧ (kv.1 == t) = false) := by
  unfold tableSet at h
  by_cases hp : tbl.any (fun kv => kv.1 == t) = true
  · rw [if_pos hp] at h
    rw [List.mem_map] at h
    obtain ⟨kv0, hkv0, hmap⟩ := h
    by_cases hkt : (kv0.1 == t) = true
    · rw [if_pos hkt] at hmap
      exact Or.inl hmap.symm
    · rw [if_neg hkt] at hmap
      subst hmap
      exact Or.inr ⟨hkv0, by simpa using hkt⟩
  · rw [if_neg hp] at h
    rw [List.mem_append] at h
    rcases h with h | h
    · refine Or.inr ⟨h, ?_⟩
      have hp2 : tbl.any (fun kv => kv.1 == t) = false := by
        cases hb : tbl.any (fun kv => kv.1 == t) with
        | true => exact absurd hb hp
        | false => rfl
      rw [List.any_eq_false] at hp2
      have h3 := hp2 kv h
      simpa using h3
    · rw [List.mem_singleton] at h
      exact Or.inl h

/-- An entry with a different key survives `Map.set` untouched. -/
theorem mem_tableSet_of_ne (tbl : List (String × Nat)) (t : String) (jid : Nat)
    (kv : String × Nat) (hm : kv ∈ tbl) (hne : (kv.1 == t) = false) :
    kv ∈ tableSet tbl t jid := by
  unfold tableSet
  by_cases hp : tbl.any (fun kv => kv.1 == t) = true
  · rw [if_pos hp]
    rw [List.mem_map]
    exact ⟨kv, hm, by rw [if_neg (by simp [hne])]⟩
  · rw [if_neg hp]
    exact List.mem_append_left _ hm

/-- Prepending an entry with a different key commutes with `Map.set`. -/
theorem tableSet_cons_ne (tbl : List (String × Nat)) (kv : String × Nat)
    (t : String) (jid : Nat) (h : (kv.1 == t) = false) :
    tableSet (kv :: tbl) t jid = kv :: tableSet tbl t jid := by
  unfold tableSet
  simp only [List.any_cons, h, Bool.false_or]
  by_cases hp : tbl.any (fun kv => kv.1 == t) = true
  · rw [if_pos hp, if_pos hp, List.map_cons, if_neg (by simp [h])]
  · rw [if_neg hp, if_neg hp, List.cons_append]

/-- `Map.get` on a nonempty table, one step. -/
theorem tableGet_cons (kv : String × Nat) (tbl : List (String × Nat)) (t : String) :
    tableGet (kv :: tbl) t =
      if (kv.1 == t) = true then some kv.2 else tableGet tbl t := by
  unfold tableGet
  cases hb : (kv.1 == t) with
  | true => simp [List.find?_cons, hb]
  | false => simp [List.find?_cons, hb]

/-- Replacing the key-`t` entries in place does not change lookups of
another key. -/
theorem tableGet_mapSet_ne (t : String) (jid : Nat) (t0 : String)
    (hts : (t == t0) = false) : ∀ (tbl : List (String × Nat)),
    tableGet (tbl.map (fun kv => if (kv.1 == t) = true then (t, jid) else kv)) t0 =
      tableGet tbl t0 := by
  intro tbl
  induction tbl with
  | nil => rfl
  | cons kv tbl ih =>
    rw [List.map_cons, tableGet_cons, tableGet_cons kv tbl t0]
    by_cases hk : (kv.1 == t) = true
    · rw [if_pos hk]
      have h1 : (((t, jid) : String × Nat).1 == t0) = false := hts
      rw [if_neg (by simp [h1]), if_neg (by
        rw [beq_iff_eq.mp hk]
        simp [hts])]
      exact ih
    · rw [if_neg hk]
      by_cases hk0 : (kv.1 == t0) = true
      · rw [if_pos hk0, if_pos hk0]
      · rw [if_neg hk0, if_neg hk0]
        exact ih

/-- `Map.get` after `Map.set` at the same key yields the new binding. -/
theorem tableGet_tableSet_self (tbl : List (String × Nat)) (t : String) (jid : Nat) :
    tableGet (tableSet tbl t jid) t = some jid := by
  induction tbl with
  | nil =>
    show tableGet (tableSet [] t jid) t = some jid
    unfold tableSet
    rw [if_neg (by simp), List.nil_append, tableGet_cons, if_pos (beq_self_eq_true t)]
  | cons kv tbl ih =>
    by_cases hk : (kv.1 == t) = true
    · unfold tableSet
      rw [if_pos (by simp [List.any_cons, hk]), List.map_cons, if_pos hk, tableGet_cons,
        if_pos (beq_self_eq_true t)]
    · rw [tableSet_cons_ne tbl kv t jid (by simpa using hk), tableGet_cons, if_neg hk]
      exact ih

/-- `Map.get` after `Map.set` at a different key is unchanged. -/
theorem tableGet_tableSet_ne (tbl : List (String × Nat)) (t : String) (jid : Nat)
    (t0 : String) (h : (t0 == t) = false) :
    tableGet (tableSet tbl t jid) t0 = tableGet tbl t0 := by
  have hts : (t == t0) = false := by
    rw [beq_eq_false_iff_ne] at h ⊢
    exact fun he => h he.symm
  unfold tableSet
  by_cases hp : tbl.any (fun kv => kv.1 == t) = true
  · rw [if_pos hp]
    exact tableGet_mapSet_ne t jid t0 hts tbl
  · rw [if_neg hp]
    induction tbl with
    | nil =>
      rw [List.nil_append, tableGet_cons, if_neg (by simpa using hts)]
    | cons kv tbl ih =>
      rw [List.cons_append, tableGet_cons, tableGet_cons kv tbl t0]
      by_cases hk0 : (kv.1 == t0) = true
      · rw [if_pos hk0, if_pos hk0]
      · rw [if_neg hk0, if_neg hk0]
        exact ih (by
          intro hany
          exact hp (by simp [List.any_cons, hany]))

/-- With unique keys, any entry bearing the looked-up key is the one
`Map.get` returns. -/
theorem tableGet_unique (t : String) : ∀ (tbl : List (String × Nat)),
    (tbl.map Prod.fst).Nodup → ∀ kv ∈ tbl, (kv.1 == t) = true →
    tableGet tbl t = some kv.2 := by
  intro tbl
  induction tbl with
  | nil => intro _ kv hkv; cases hkv
  | cons kv0 tbl ih =>
    intro hn kv hkv ht
    rw [List.map_cons, List.nodup_cons] at hn
    rcases List.mem_cons.mp hkv with rfl | hkv
    · rw [tableGet_cons, if_pos ht]
    · by_cases hk0 : (kv0.1 == t) = true
      · exfalso
        apply hn.1
        rw [List.mem_map]
        refine ⟨kv, hkv, ?_⟩
        rw [beq_iff_eq.mp ht, ← beq_iff_eq.mp hk0]
      · rw [tableGet_cons, if_neg hk0]
        exact ih hn.2 kv hkv ht

/-- A present key makes `Map.get` succeed. -/
theorem tableGet_isSome_of_mem (tbl : List (String × Nat)) (t : String)
    (kv : String × Nat) (hm : kv ∈ tbl) (ht : (kv.1 == t) = true) :
    tableGet tbl t ≠ none := by
  unfold tableGet
  intro hcon
  rw [Option.map_eq_none'] at hcon
  rw [List.find?_eq_none] at hcon
  exact by simpa [ht] using hcon kv hm

/-- The entry `Map.get` returns is in the table and bears the key. -/
theorem tableGet_mem (tbl : List (String × Nat)) (t : String) (jid : Nat)
    (h : tableGet tbl t = some jid) : (t, jid) ∈ tbl := by
  unfold tableGet at h
  rw [Option.map_eq_some'] at h
  obtain ⟨kv, hfind, hsnd⟩ := h
  have hmem := List.mem_of_find?_eq_some hfind
  have hpred := List.find?_some hfind
  have hfst : kv.1 = t := beq_iff_eq.mp hpred
  have hkv : kv = (t, jid) := by
    cases kv
    simp only [Prod.mk.injEq]
    exact ⟨hfst, hsnd⟩
  rw [← hkv]
  exact hmem

/-- Stopping a job never changes identities, only the running flag of
the targeted identity. -/
theorem mem_stopJob (jobs : List CronJob) (jid : Nat) (j : CronJob)
    (h : j ∈ stopJob jobs jid) :
    ∃ j0 ∈ jobs, j = (if (j0.jobId == jid) = true then { j0 with running := false } else j0) := by
  unfold stopJob at h
  rw [List.mem_map] at h
  obtain ⟨j0, hj0, hmap⟩ := h
  exact ⟨j0, hj0, hmap.symm⟩

/-- Full specification of a successful `scheduleTask` call from an
invariant state: the invariant is preserved, the call returns true, the
table now maps the task type to the fresh job, and every job bearing the
replaced identity has been stopped. -/
theorem scheduleTask_spec (defs : TaskDefs) (cv : String → Bool) (st : SchedState)
    (t e : String) (hInv : SchedInv st)
    (hk : (lookupDef defs t).isSome = true) (hv : cv e = true) :
    SchedInv (scheduleTask defs cv st t e).1
    ∧ (scheduleTask defs cv st t e).2 = .ok true
    ∧ tableGet (scheduleTask defs cv st t e).1.scheduledJobs t = some st.nextJobId
    ∧ (∀ jid0, tableGet st.scheduledJobs t = some jid0 →
        ∀ j ∈ (scheduleTask defs cv st t e).1.jobs, j.jobId = jid0 → j.running = false) := by
  obtain ⟨td, htd⟩ := Option.isSome_iff_exists.mp hk
  obtain ⟨hn, hbt, hbj, hrr⟩ := hInv
  cases hget : tableGet st.scheduledJobs t with
  | some jid0 =>
    have heq : scheduleTask defs cv st t e =
        ({ jobs := stopJob st.jobs jid0 ++ [⟨st.nextJobId, e, true⟩],
           scheduledJobs := tableSet st.scheduledJobs t st.nextJobId,
           nextJobId := st.nextJobId + 1 }, .ok true) := by
      unfold scheduleTask
      rw [htd, hv, hget]
      rfl
    rw [heq]
    dsimp only
    refine ⟨⟨?_, ?_, ?_, ?_⟩, rfl, ?_, ?_⟩
    · exact nodup_tableSet _ _ _ hn
    · intro kv hkv
      rcases mem_tableSet _ _ _ kv hkv with rfl | ⟨hm, _⟩
      · exact Nat.lt_succ_self st.nextJobId
      · exact Nat.lt_succ_of_lt (hbt kv hm)
    · intro j hj
      rcases List.mem_append.mp hj with hj | hj
      · obtain ⟨j0, hj0, rfl⟩ := mem_stopJob _ _ _ hj
        by_cases hc : (j0.jobId == jid0) = true
        · rw [if_pos hc]
          exact Nat.lt_succ_of_lt (hbj j0 hj0)
        · rw [if_neg hc]
          exact Nat.lt_succ_of_lt (hbj j0 hj0)
      · rw [List.mem_singleton] at hj
        subst hj
        exact Nat.lt_succ_self st.nextJobId
    · intro j hj hr
      rcases List.mem_append.mp hj with hj | hj
      · obtain ⟨j0, hj0, rfl⟩ := mem_stopJob _ _ _ hj
        by_cases hc : (j0.jobId == jid0) = true
        · rw [if_pos hc] at hr
          simp at hr
        · rw [if_neg hc] at hr ⊢
          obtain ⟨kv, hkv, hkid⟩ := hrr j0 hj0 hr
          by_cases hkt : (kv.1 == t) = true
          · exfalso
            have huniq := tableGet_unique t st.scheduledJobs hn kv hkv hkt
            rw [hget] at huniq
            have hkv2 : kv.2 = jid0 := by
              injection huniq.symm
            have hc2 : j0.jobId ≠ jid0 := by simpa using hc
            exact hc2 (by rw [← hkid, hkv2])
          · exact ⟨kv, mem_tableSet_of_ne _ _ _ kv hkv (by simpa using hkt), hkid⟩
      · rw [List.mem_singleton] at hj
        subst hj
        refine ⟨(t, st.nextJobId), ?_, rfl⟩
        exact tableGet_mem _ _ _ (tableGet_tableSet_self st.scheduledJobs t st.nextJobId)
    · exact tableGet_tableSet_self st.scheduledJobs t st.nextJobId
    · intro jid0' hget' j hj hid
      have hjid : jid0 = jid0' := by injection hget'
      subst hjid
      rcases List.mem_append.mp hj with hj | hj
      · obtain ⟨j0, hj0, rfl⟩ := mem_stopJob _ _ _ hj
        by_cases hc : (j0.jobId == jid0) = true
        · rw [if_pos hc]
        · exfalso
          rw [if_neg hc] at hid
          have hc2 : j0.jobId ≠ jid0 := by simpa using hc
          exact hc2 hid
      · exfalso
        rw [List.mem_singleton] at hj
        subst hj
        have : jid0 < st.nextJobId := hbt _ (tableGet_mem _ _ _ hget)
        dsimp only at hid
        omega
  | none =>
    have heq : scheduleTask defs cv st t e =
        ({ jobs := st.jobs ++ [⟨st.nextJobId, e, true⟩],
           scheduledJobs := tableSet st.scheduledJobs t st.nextJobId,
           nextJobId := st.nextJobId + 1 }, .ok true) := by
      unfold scheduleTask
      rw [htd, hv, hget]
      rfl
    rw [heq]
    dsimp only
    refine ⟨⟨?_, ?_, ?_, ?_⟩, rfl, ?_, ?_⟩
    · exact nodup_tableSet _ _ _ hn
    · intro kv hkv
      rcases mem_tableSet _ _ _ kv hkv with rfl | ⟨hm, _⟩
      · exact Nat.lt_succ_self st.nextJobId
      · exact Nat.lt_succ_of_lt (hbt kv hm)
    · intro j hj
      rcases List.mem_append.mp hj with hj | hj
      · exact Nat.lt_succ_of_lt (hbj j hj)
      · rw [List.mem_singleton] at hj
        subst hj
        exact Nat.lt_succ_self st.nextJobId
    · intro j hj hr
      rcases List.mem_append.mp hj with hj | hj
      · obtain ⟨kv, hkv, hkid⟩ := hrr j hj hr
        by_cases hkt : (kv.1 == t) = true
        · exact absurd hget (tableGet_isSome_of_mem _ _ kv hkv hkt)
        · exact ⟨kv, mem_tableSet_of_ne _ _ _ kv hkv (by simpa using hkt), hkid⟩
      · rw [List.mem_singleton] at hj
        subst hj
        refine ⟨(t, st.nextJobId), ?_, rfl⟩
        exact tableGet_mem _ _ _ (tableGet_tableSet_self st.scheduledJobs t st.nextJobId)
    · exact tableGet_tableSet_self st.scheduledJobs t st.nextJobId
    · intro jid0' hget' j hj hid
      cases hget'

/-- Every `scheduleTask` call, including failing ones, preserves the
schedule-table invariant. -/
theorem scheduleTask_inv (defs : TaskDefs) (cv : String → Bool) (st : SchedState)
    (t e : String) (h : SchedInv st) : SchedInv (scheduleTask defs cv st t e).1 := by
  by_cases h1 : (lookupDef defs t).isNone = true
  · have heq : scheduleTask defs cv st t e = (st, .error (.unknownTaskType t)) := by
      unfold scheduleTask
      rw [if_pos h1]
    rw [heq]
    exact h
  · by_cases h2 : cv e = true
    · refine (scheduleTask_spec defs cv st t e h ?_ h2).1
      cases hopt : lookupDef defs t with
      | none => rw [hopt] at h1; exact absurd rfl h1
      | some td => rfl
    · have hcv : cv e = false := by
        cases hb : cv e with
        | true => exact absurd hb h2
        | false => rfl
      have heq : scheduleTask defs cv st t e =
          (st, .error (.invalidCronExpression e t)) := by
        unfold scheduleTask
        rw [if_neg h1, hcv]
        rfl
      rw [heq]
      exact h

/-- The empty state satisfies the invariant. -/
theorem schedInv_empty : SchedInv emptySched := by
  refine ⟨List.nodup_nil, ?_, ?_, ?_⟩ <;> intro x hx <;> cases hx

/-- The invariant holds after every sequence of `scheduleTask` calls. -/
theorem applySchedule_inv (defs : TaskDefs) (cv : String → Bool) :
    ∀ (ops : List (String × String)) (st : SchedState),
    SchedInv st → SchedInv (applySchedule defs cv ops st) := by
  intro ops
  induction ops with
  | nil => intro st h; exact h
  | cons op rest ih =>
    intro st h
    exact ih _ (scheduleTask_inv defs cv st op.1 op.2 h)

/-- C8: after every sequence of `scheduleTask` calls from the empty
state the schedule table holds at most one entry per task type, and a
successful call for an already scheduled type keeps the invariant,
installs the fresh trigger as the single entry for that type, and leaves
every job bearing the replaced identity stopped, so the replaced job
never fires again. -/
theorem C8_single_live_schedule (defs : TaskDefs) (cv : String → Bool)
    (ops : List (String × String)) (st : SchedState) (t e : String)
    (hInv : SchedInv st) (hk : (lookupDef defs t).isSome = true) (hv : cv e = true) :
    ((applySchedule defs cv ops emptySched).scheduledJobs.map Prod.fst).Nodup
    ∧ SchedInv (applySchedule defs cv ops emptySched)
    ∧ SchedInv (scheduleTask defs cv st t e).1
    ∧ (scheduleTask defs cv st t e).2 = .ok true
    ∧ ((scheduleTask defs cv st t e).1.scheduledJobs.map Prod.fst).Nodup
    ∧ tableGet (scheduleTask defs cv st t e).1.scheduledJobs t = some st.nextJobId
    ∧ (∀ jid0, tableGet st.scheduledJobs t = some jid0 →
        ∀ j ∈ (scheduleTask defs cv st t e).1.jobs, j.jobId = jid0 → j.running = false) := by
  have hops := applySchedule_inv defs cv ops emptySched schedInv_empty
  have hspec := scheduleTask_spec defs cv st t e hInv hk hv
  exact ⟨hops.1, hops, hspec.1, hspec.2.1, hspec.1.1, hspec.2.2.1, hspec.2.2.2⟩

/-- A one-task registry used by the scheduler witnesses. -/
def defsW : TaskDefs := [("a", tdC10)]

/-- A cron validator that accepts everything. -/
def cvTrue : String → Bool := fun _ => true

/-- The state after scheduling task `a` once from the empty state. -/
def stW : SchedState := applySchedule defsW cvTrue [("a", "x1")] emptySched

/-- Witness for C8: rescheduling task `a` succeeds, the table maps `a`
to the fresh job, and the replaced job (identity 0) is stopped. -/
theorem C8_single_live_schedule_witness :
    (scheduleTask defsW cvTrue stW "a" "x2").2 = .ok true
    ∧ tableGet (scheduleTask defsW cvTrue stW "a" "x2").1.scheduledJobs "a" =
        some stW.nextJobId
    ∧ (⟨0, "x1", false⟩ : CronJob).running = false := by
  have h := C8_single_live_schedule defsW cvTrue [] stW "a" "x2" (by decide) rfl rfl
  refine ⟨h.2.2.2.1, h.2.2.2.2.2.1, ?_⟩
  exact h.2.2.2.2.2.2 0 (by decide) ⟨0, "x1", false⟩ (by decide) rfl

/-! ## Initialization lemmas -/

/-- Every registered pair is found by the registry lookup. -/
theorem lookupDef_isSome_of_mem (defs : TaskDefs) (p : String × TaskDefinition)
    (h : p ∈ defs) : (lookupDef defs p.1).isSome = true := by
  unfold lookupDef
  cases hf : defs.find? (fun kv => kv.1 == p.1) with
  | some kv => rfl
  | none =>
    exfalso
    rw [List.find?_eq_none] at hf
    exact by simpa using hf p h

/-- A rejected cron expression makes `scheduleTask` throw
InvalidCronExpression and leave the state untouched. -/
theorem scheduleTask_invalid_cron (defs : TaskDefs) (cv : String → Bool)
    (st : SchedState) (t e : String)
    (hk : (lookupDef defs t).isSome = true) (hv : cv e = false) :
    scheduleTask defs cv st t e = (st, .error (.invalidCronExpression e t)) := by
  obtain ⟨td, htd⟩ := Option.isSome_iff_exists.mp hk
  unfold scheduleTask
  rw [htd, hv]
  rfl

/-- A valid call returns `true`. -/
theorem scheduleTask_ok_shape (defs : TaskDefs) (cv : String → Bool)
    (st : SchedState) (t e : String)
    (hk : (lookupDef defs t).isSome = true) (hv : cv e = true) :
    (scheduleTask defs cv st t e).2 = .ok true := by
  obtain ⟨td, htd⟩ := Option.isSome_iff_exists.mp hk
  unfold scheduleTask
  rw [htd, hv]
  cases tableGet st.scheduledJobs t <;> rfl

/-- A valid call installs the fresh job under the task type. -/
theorem scheduleTask_ok_get (defs : TaskDefs) (cv : String → Bool)
    (st : SchedState) (t e : String)
    (hk : (lookupDef defs t).isSome = true) (hv : cv e = true) :
    tableGet (scheduleTask defs cv st t e).1.scheduledJobs t = some st.nextJobId := by
  obtain ⟨td, htd⟩ := Option.isSome_iff_exists.mp hk
  unfold scheduleTask
  rw [htd, hv]
  cases tableGet st.scheduledJobs t <;>
    exact tableGet_tableSet_self st.scheduledJobs t st.nextJobId

/-- `scheduleTask` never removes a table entry. -/
theorem scheduleTask_tableGet_mono (defs : TaskDefs) (cv : String → Bool)
    (st : SchedState) (t e t0 : String)
    (h : tableGet st.scheduledJobs t0 ≠ none) :
    tableGet (scheduleTask defs cv st t e).1.scheduledJobs t0 ≠ none := by
  unfold scheduleTask
  by_cases h1 : (lookupDef defs t).isNone = true
  · rw [if_pos h1]; exact h
  · rw [if_neg h1]
    by_cases h2 : (!cv e) = true
    · rw [if_pos h2]; exact h
    · rw [if_neg h2]
      by_cases ht0 : (t0 == t) = true
      · rw [beq_iff_eq.mp ht0]
        cases tableGet st.scheduledJobs t <;>
          · rw [tableGet_tableSet_self]
            exact Option.some_ne_none _
      · cases tableGet st.scheduledJobs t <;>
          · rw [tableGet_tableSet_ne _ _ _ _ (by simpa using ht0)]
            exact h

/-- The initialization loop never removes a table entry. -/
theorem initSchedule_tableGet_mono (defs : TaskDefs) (cv : String → Bool) :
    ∀ (l : List (String × TaskDefinition)) (st : SchedState) (t0 : String),
    tableGet st.scheduledJobs t0 ≠ none →
    tableGet (initSchedule defs cv l st).1.scheduledJobs t0 ≠ none := by
  intro l
  induction l with
  | nil => intro st t0 h; exact h
  | cons hd tl ih =>
    intro st t0 h
    obtain ⟨t, d⟩ := hd
    cases hc : d.cronSchedule with
    | none =>
      rw [show initSchedule defs cv ((t, d) :: tl) st = initSchedule defs cv tl st from by
        simp [initSchedule, hc]]
      exact ih st t0 h
    | some e0 =>
      have hmono := scheduleTask_tableGet_mono defs cv st t e0 t0 h
      rw [show initSchedule defs cv ((t, d) :: tl) st =
          (match scheduleTask defs cv st t e0 with
            | (st1, .ok _) => initSchedule defs cv tl st1
            | (st1, .error err) => (st1, .error err)) from by
        simp [initSchedule, hc]]
      cases hsch : scheduleTask defs cv st t e0 with
      | mk st1 r =>
        rw [hsch] at hmono
        cases r with
        | ok b => exact ih st1 t0 hmono
        | error err => exact hmono

/-- The loop result is success exactly when every cron expression it
visits is valid. -/
theorem initSchedule_ok_iff (defs : TaskDefs) (cv : String → Bool) :
    ∀ (l : List (String × TaskDefinition)) (st : SchedState),
    (∀ p ∈ l, (lookupDef defs p.1).isSome = true) →
    ((initSchedule defs cv l st).2 = .ok () ↔
      ∀ p ∈ l, ∀ e0, p.2.cronSchedule = some e0 → cv e0 = true) := by
  intro l
  induction l with
  | nil =>
    intro st _
    simp [initSchedule]
  | cons hd tl ih =>
    intro st hlk
    obtain ⟨t, d⟩ := hd
    cases hc : d.cronSchedule with
    | none =>
      rw [show initSchedule defs cv ((t, d) :: tl) st = initSchedule defs cv tl st from by
        simp [initSchedule, hc]]
      rw [ih st (fun p hp => hlk p (List.mem_cons_of_mem _ hp))]
      constructor
      · intro hall p hp e0 he0
        rcases List.mem_cons.mp hp with rfl | hp
        · rw [hc] at he0
          cases he0
        · exact hall p hp e0 he0
      · intro hall p hp e0 he0
        exact hall p (List.mem_cons_of_mem _ hp) e0 he0
    | some e0 =>
      have hkt : (lookupDef defs t).isSome = true := hlk (t, d) (List.mem_cons_self _ _)
      rw [show initSchedule defs cv ((t, d) :: tl) st =
          (match scheduleTask defs cv st t e0 with
            | (st1, .ok _) => initSchedule defs cv tl st1
            | (st1, .error err) => (st1, .error err)) from by
        simp [initSchedule, hc]]
      cases hv : cv e0 with
      | true =>
        have hshape := scheduleTask_ok_shape defs cv st t e0 hkt hv
        cases hsch : scheduleTask defs cv st t e0 with
        | mk st1 r =>
          rw [hsch] at hshape
          cases r with
          | error err => cases hshape
          | ok b =>
            rw [ih st1 (fun p hp => hlk p (List.mem_cons_of_mem _ hp))]
            constructor
            · intro hall p hp e1 he1
              rcases List.mem_cons.mp hp with rfl | hp
              · rw [hc] at he1
                injection he1 with he1
                rw [← he1]
                exact hv
              · exact hall p hp e1 he1
            · intro hall p hp e1 he1
              exact hall p (List.mem_cons_of_mem _ hp) e1 he1
      | false =>
        rw [scheduleTask_invalid_cron defs cv st t e0 hkt hv]
        constructor
        · intro hcon
          cases hcon
        · intro hall
          have := hall (t, d) (List.mem_cons_self _ _) e0 hc
          rw [hv] at this
          cases this

/-- On success, every visited cron-carrying task type has a live table
entry in the final state. -/
theorem initSchedule_ok_table (defs : TaskDefs) (cv : String → Bool) :
    ∀ (l : List (String × TaskDefinition)) (st : SchedState),
    (∀ p ∈ l, (lookupDef defs p.1).isSome = true) →
    (initSchedule defs cv l st).2 = .ok () →
    ∀ p ∈ l, ∀ e0, p.2.cronSchedule = some e0 →
    tableGet (initSchedule defs cv l st).1.scheduledJobs p.1 ≠ none := by
  intro l
  induction l with
  | nil =>
    intro st _ _ p hp
    cases hp
  | cons hd tl ih =>
    intro st hlk hok p hp e0 he0
    obtain ⟨t, d⟩ := hd
    cases hc : d.cronSchedule with
    | none =>
      rw [show initSchedule defs cv ((t, d) :: tl) st = initSchedule defs cv tl st from by
        simp [initSchedule, hc]] at hok ⊢
      rcases List.mem_cons.mp hp with rfl | hp
      · rw [hc] at he0
        cases he0
      · exact ih st (fun q hq => hlk q (List.mem_cons_of_mem _ hq)) hok p hp e0 he0
    | some e1 =>
      have hkt : (lookupDef defs t).isSome = true := hlk (t, d) (List.mem_cons_self _ _)
      rw [show initSchedule defs cv ((t, d) :: tl) st =
          (match scheduleTask defs cv st t e1 with
            | (st1, .ok _) => initSchedule defs cv tl st1
            | (st1, .error err) => (st1, .error err)) from by
        simp [initSchedule, hc]] at hok ⊢
      cases hv : cv e1 with
      | false =>
        rw [scheduleTask_invalid_cron defs cv st t e1 hkt hv] at hok
        cases hok
      | true =>
        have hshape := scheduleTask_ok_shape defs cv st t e1 hkt hv
        have hget := scheduleTask_ok_get defs cv st t e1 hkt hv
        cases hsch : scheduleTask defs cv st t e1 with
        | mk st1 r =>
          rw [hsch] at hshape hget hok
          cases r with
          | error err => cases hshape
          | ok b =>
            rcases List.mem_cons.mp hp with rfl | hp
            · exact initSchedule_tableGet_mono defs cv tl st1 t
                (by rw [hget]; exact Option.some_ne_none _)
            · exact ih st1 (fun q hq => hlk q (List.mem_cons_of_mem _ hq)) hok p hp e0 he0

/-- Aborting on the first invalid cron expression: the loop returns the
state reached after the valid prefix, with the InvalidCronExpression
error of the offending entry. -/
theorem initSchedule_append_err (defs : TaskDefs) (cv : String → Bool) :
    ∀ (pre : List (String × TaskDefinition)) (st : SchedState)
      (t0 : String) (d0 : TaskDefinition) (rest : List (String × TaskDefinition))
      (e0 : String),
    (∀ p ∈ pre, (lookupDef defs p.1).isSome = true) →
    (∀ p ∈ pre, ∀ e1, p.2.cronSchedule = some e1 → cv e1 = true) →
    (lookupDef defs t0).isSome = true →
    d0.cronSchedule = some e0 → cv e0 = false →
    initSchedule defs cv (pre ++ (t0, d0) :: rest) st =
      ((initSchedule defs cv pre st).1, .error (.invalidCronExpression e0 t0))
    ∧ (initSchedule defs cv pre st).2 = .ok () := by
  intro pre
  induction pre with
  | nil =>
    intro st t0 d0 rest e0 _ _ hk0 hc0 hv0
    refine ⟨?_, rfl⟩
    rw [List.nil_append]
    rw [show initSchedule defs cv ((t0, d0) :: rest) st =
        (match scheduleTask defs cv st t0 e0 with
          | (st1, .ok _) => initSchedule defs cv rest st1
          | (st1, .error err) => (st1, .error err)) from by
      simp [initSchedule, hc0]]
    rw [scheduleTask_invalid_cron defs cv st t0 e0 hk0 hv0]
    rfl
  | cons hd tl ih =>
    intro st t0 d0 rest e0 hlk hval hk0 hc0 hv0
    obtain ⟨t, d⟩ := hd
    have hlk' : ∀ p ∈ tl, (lookupDef defs p.1).isSome = true :=
      fun p hp => hlk p (List.mem_cons_of_mem _ hp)
    have hval' : ∀ p ∈ tl, ∀ e1, p.2.cronSchedule = some e1 → cv e1 = true :=
      fun p hp => hval p (List.mem_cons_of_mem _ hp)
    cases hc : d.cronSchedule with
    | none =>
      rw [show ((t, d) :: tl) ++ (t0, d0) :: rest = (t, d) :: (tl ++ (t0, d0) :: rest) from rfl]
      rw [show initSchedule defs cv ((t, d) :: (tl ++ (t0, d0) :: rest)) st =
          initSchedule defs cv (tl ++ (t0, d0) :: rest) st from by
        simp [initSchedule, hc]]
      rw [show initSchedule defs cv ((t, d) :: tl) st = initSchedule defs cv tl st from by
        simp [initSchedule, hc]]
      exact ih st t0 d0 rest e0 hlk' hval' hk0 hc0 hv0
    | some e1 =>
      have hkt : (lookupDef defs t).isSome = true := hlk (t, d) (List.mem_cons_self _ _)
      have hv1 : cv e1 = true := hval (t, d) (List.mem_cons_self _ _) e1 hc
      have hshape := scheduleTask_ok_shape defs cv st t e1 hkt hv1
      rw [show ((t, d) :: tl) ++ (t0, d0) :: rest = (t, d) :: (tl ++ (t0, d0) :: rest) from rfl]
      rw [show initSchedule defs cv ((t, d) :: (tl ++ (t0, d0) :: rest)) st =
          (match scheduleTask defs cv st t e1 with
            | (st1, .ok _) => initSchedule defs cv (tl ++ (t0, d0) :: rest) st1
            | (st1, .error err) => (st1, .error err)) from by
        simp [initSchedule, hc]]
      rw [show initSchedule defs cv ((t, d) :: tl) st =
          (match scheduleTask defs cv st t e1 with
            | (st1, .ok _) => initSchedule defs cv tl st1
            | (st1, .error err) => (st1, .error err)) from by
        simp [initSchedule, hc]]
      cases hsch : scheduleTask defs cv st t e1 with
      | mk st1 r =>
        rw [hsch] at hshape
        cases r with
        | error err => cases hshape
        | ok b => exact ih st1 t0 d0 rest e0 hlk' hval' hk0 hc0 hv0

/-- C9: `initialize` sets `ready = true` exactly when every registered
cron expression is valid; on success every task definition carrying a
cronSchedule has a live schedule entry; and when the registry splits as
a valid prefix followed by the first definition with an invalid cron
expression, initialization fails with that InvalidCronExpression error,
`ready` stays false, and the final state is exactly the state reached by
scheduling the valid prefix — prior valid schedules are left
untouched. -/
theorem C9_initialize_contract (defs : TaskDefs) (cv : String → Bool) (st : SchedState) :
    ((initScheduler defs cv st).2.1 = true ↔
      ∀ p ∈ defs, ∀ e0, p.2.cronSchedule = some e0 → cv e0 = true)
    ∧ ((initScheduler defs cv st).2.2 = .ok () →
        ∀ p ∈ defs, ∀ e0, p.2.cronSchedule = some e0 →
          tableGet (initScheduler defs cv st).1.scheduledJobs p.1 ≠ none)
    ∧ (∀ pre t0 d0 rest e0, defs = pre ++ (t0, d0) :: rest →
        (∀ p ∈ pre, ∀ e1, p.2.cronSchedule = some e1 → cv e1 = true) →
        d0.cronSchedule = some e0 → cv e0 = false →
        initScheduler defs cv st =
          ((initSchedule defs cv pre st).1, false, .error (.invalidCronExpression e0 t0))
        ∧ (initSchedule defs cv pre st).2 = .ok ()) := by
  have hlkAll : ∀ p ∈ defs, (lookupDef defs p.1).isSome = true :=
    fun p hp => lookupDef_isSome_of_mem defs p hp
  have hiff := initSchedule_ok_iff defs cv defs st hlkAll
  refine ⟨?_, ?_, ?_⟩
  · unfold initScheduler
    cases hinit : initSchedule defs cv defs st with
    | mk st1 r =>
      rw [hinit] at hiff
      cases r with
      | ok u =>
        cases u
        exact ⟨fun _ => hiff.mp rfl, fun _ => rfl⟩
      | error err =>
        exact ⟨fun hcon => absurd hcon (by simp),
          fun hall => absurd (hiff.mpr hall) (by simp)⟩
  · intro hok p hp e0 he0
    have htab := initSchedule_ok_table defs cv defs st hlkAll
    unfold initScheduler at hok ⊢
    cases hinit : initSchedule defs cv defs st with
    | mk st1 r =>
      rw [hinit] at hok htab
      cases r with
      | error err => cases hok
      | ok u =>
        cases u
        exact htab rfl p hp e0 he0
  · intro pre t0 d0 rest e0 hdefs hval hc0 hv0
    subst hdefs
    have hlkPre : ∀ p ∈ pre, (lookupDef (pre ++ (t0, d0) :: rest) p.1).isSome = true :=
      fun p hp => hlkAll p (List.mem_append_left _ hp)
    have hk0 : (lookupDef (pre ++ (t0, d0) :: rest) t0).isSome = true :=
      lookupDef_isSome_of_mem _ (t0, d0)
        (List.mem_append_right _ (List.mem_cons_self _ _))
    have happ := initSchedule_append_err (pre ++ (t0, d0) :: rest) cv pre st t0 d0 rest e0
      hlkPre hval hk0 hc0 hv0
    refine ⟨?_, happ.2⟩
    unfold initScheduler
    rw [happ.1]

/-- A task whose cron expression is accepted by the witness validator. -/
def tdCronX : TaskDefinition :=
  ⟨some "x", none, [], none, none, fun _ _ => ⟨some 1, .ok "r"⟩⟩

/-- A task whose cron expression is rejected by the witness validator. -/
def tdCronY : TaskDefinition :=
  ⟨some "y", none, [], none, none, fun _ _ => ⟨some 1, .ok "r"⟩⟩

/-- A two-task registry where only the first cron expression is valid. -/
def defs9 : TaskDefs := [("a", tdCronX), ("b", tdCronY)]

/-- A validator accepting exactly the expression `x`. -/
def cv9 : String → Bool := fun s => s == "x"

/-- Witness for C9: with one valid and one invalid cron expression,
initialization fails with InvalidCronExpression on the invalid one,
leaves `ready` false, and keeps the state of the valid prefix. -/
theorem C9_initialize_contract_witness :
    (initScheduler defs9 cv9 emptySched).2.1 = false
    ∧ initScheduler defs9 cv9 emptySched =
        ((initSchedule defs9 cv9 [("a", tdCronX)] emptySched).1, false,
          .error (.invalidCronExpression "y" "b")) := by
  have h := C9_initialize_contract defs9 cv9 emptySched
  have hC := h.2.2 [("a", tdCronX)] "b" tdCronY [] "y" rfl
    (by
      intro p hp e1 he1
      rw [List.mem_singleton] at hp
      subst hp
      have he2 : (some "x" : Option String) = some e1 := he1
      injection he2 with he2
      rw [← he2]
      rfl)
    rfl rfl
  refine ⟨?_, hC.1⟩
  rw [hC.1]

end SchedulerService
